import Mathlib

/-!
Verification of the column-lineage inference engine and lineage assembler of
`marquez_lineage_sync.py` (class `MarquezSync`).

The Python code does all its work with `re.search` over a small, fixed set of
regular expressions, evaluated on whitespace-normalized SQL text.  We embed a
backtracking matcher for exactly the atom alphabet those patterns use
(`\w+`, `\d+`, `\s+`, `\s*`, case-insensitive literals, an alternation of
literals, a character class, the lazy `.*?`, and the word boundary `\b`),
with Python's leftmost-search / greedy / lazy semantics, and then translate
each method of the source file on top of it.
-/

namespace MarquezSync

/-- Python `\w` on the ASCII inputs used here: letters, digits, underscore. -/
def isWordChar (c : Char) : Bool := c.isAlpha || c.isDigit || c == '_'

/-- Python `\s`: space, tab, newline, carriage return, vertical tab, form feed. -/
def isWS (c : Char) : Bool :=
  c == ' ' || c == '\t' || c == '\n' || c == '\r' || c == '\x0b' || c == '\x0c'

/-- Case-insensitive character comparison (re.IGNORECASE on ASCII). -/
def lowerEq (a b : Char) : Bool := a.toLower == b.toLower

/-- Does `text` start with the literal `s`, case-insensitively? -/
def startsWithCI : List Char → List Char → Bool
  | _, [] => true
  | [], _ :: _ => false
  | c :: t, d :: l => lowerEq c d && startsWithCI t l

/-- Regex atoms occurring in the source file's patterns. -/
inductive RAtom where
  | wplus (cap : Bool)          -- `\w+` (capturing when `cap`)
  | dplus                       -- `\d+`
  | splus                       -- `\s+`
  | sstar                       -- `\s*`
  | lit (s : List Char)         -- case-insensitive literal
  | alts (ls : List (List Char)) -- `(a|b|...)` alternation of literals
  | cls (cs : List Char)        -- character class `[...]`
  | lazystar                    -- `.*?` (DOTALL)
  | wb                          -- `\b`

/-- `[k, k-1, ..., 1]`: candidate consumption lengths of a greedy `+` quantifier. -/
def descRange (k : Nat) : List Nat := (List.range k).reverse.map (· + 1)

/-- The character preceding the cursor after consuming `j` characters of `text`
(needed for `\b`). -/
def prevAfter (text : List Char) (j : Nat) (prev : Option Char) : Option Char :=
  if j = 0 then prev else (text.take j).getLast?

/-- Backtracking matcher: try to match the atom list at the start of `text`
(`prev` is the character just before `text` in the full subject).  Returns the
captured groups in pattern order on success.  Greedy quantifiers try longest
first, the lazy `.*?` shortest first, alternations left to right — exactly
Python `re` backtracking.  The fuel argument only bounds the recursion; every
recursive call is on a strictly shorter atom list, so `atoms.length + 1` fuel
is always sufficient. -/
def matchAtoms : Nat → List RAtom → List Char → Option Char → Option (List String)
  | 0, _, _, _ => none
  | _ + 1, [], _, _ => some []
  | fuel + 1, a :: rest, text, prev =>
    match a with
    | .wb =>
      let lw := (prev.map isWordChar).getD false
      let rw := (text.head?.map isWordChar).getD false
      if lw ≠ rw then matchAtoms fuel rest text prev else none
    | .lit s =>
      if startsWithCI text s then
        matchAtoms fuel rest (text.drop s.length) (prevAfter text s.length prev)
      else none
    | .cls cs =>
      match text with
      | c :: t => if c ∈ cs then matchAtoms fuel rest t (some c) else none
      | [] => none
    | .alts ls =>
      ls.findSome? (fun s =>
        if startsWithCI text s then
          (matchAtoms fuel rest (text.drop s.length) (prevAfter text s.length prev)).map
            (fun caps => String.mk (text.take s.length) :: caps)
        else none)
    | .wplus cap =>
      let k := (text.takeWhile isWordChar).length
      (descRange k).findSome? (fun j =>
        (matchAtoms fuel rest (text.drop j) (prevAfter text j prev)).map
          (fun caps => if cap then String.mk (text.take j) :: caps else caps))
    | .dplus =>
      let k := (text.takeWhile Char.isDigit).length
      (descRange k).findSome? (fun j =>
        matchAtoms fuel rest (text.drop j) (prevAfter text j prev))
    | .splus =>
      let k := (text.takeWhile isWS).length
      (descRange k).findSome? (fun j =>
        matchAtoms fuel rest (text.drop j) (prevAfter text j prev))
    | .sstar =>
      let k := (text.takeWhile isWS).length
      (descRange k ++ [0]).findSome? (fun j =>
        matchAtoms fuel rest (text.drop j) (prevAfter text j prev))
    | .lazystar =>
      (List.range (text.length + 1)).findSome? (fun j =>
        matchAtoms fuel rest (text.drop j) (prevAfter text j prev))

/-- `re.search`: try the pattern at every position, leftmost first. -/
def research (atoms : List RAtom) (text : List Char) : Option (List String) :=
  (List.range (text.length + 1)).findSome? (fun i =>
    matchAtoms (atoms.length + 1) atoms (text.drop i) (prevAfter text i none))

/-- `compiled_code.strip()`: drop leading and trailing whitespace. -/
def stripChars (l : List Char) : List Char :=
  ((l.dropWhile isWS).reverse.dropWhile isWS).reverse

/-- `re.sub(r'\s+', ' ', ·)`: collapse every whitespace run to a single space.
The flag records whether we are inside a run already emitted as one space. -/
def collapseGo : Bool → List Char → List Char
  | _, [] => []
  | inRun, c :: t =>
    if isWS c then
      if inRun then collapseGo true t else ' ' :: collapseGo true t
    else c :: collapseGo false t

/-- `normalized_sql = re.sub(r'\s+', ' ', compiled_code.strip())`. -/
def normalizeSql (s : String) : List Char := collapseGo false (stripChars s.data)

/-- Shorthand for a case-insensitive literal atom. -/
def litS (s : String) : RAtom := .lit s.data

/-- Pattern 1 of `_infer_source_column`: `(\w+)\s+as\s+{tc}\b`. -/
def directAliasPat (tc : String) : List RAtom :=
  [.wplus true, .splus, litS "as", .splus, .lit tc.data, .wb]

/-- Pattern 2 of `_infer_source_column`: `\w+\((\w+)\)\s+as\s+{tc}\b`. -/
def functionAliasPat (tc : String) : List RAtom :=
  [.wplus false, litS "(", .wplus true, litS ")", .splus, litS "as", .splus, .lit tc.data, .wb]

/-- Pattern 3 of `_infer_source_column`: `(\w+)\s*[+\-*/]\s*\d+\s+as\s+{tc}\b`. -/
def arithAliasPat (tc : String) : List RAtom :=
  [.wplus true, .sstar, .cls ['+', '-', '*', '/'], .sstar, .dplus, .splus,
   litS "as", .splus, .lit tc.data, .wb]

/-- Pattern 4 of `_infer_source_column`:
`case\s+when\s+(\w+)\s*=.*?then\s+(\w+).*?as\s+{tc}\b` (DOTALL). -/
def caseWhenPat (tc : String) : List RAtom :=
  [litS "case", .splus, litS "when", .splus, .wplus true, .sstar, litS "=",
   .lazystar, litS "then", .splus, .wplus true, .lazystar, litS "as", .splus,
   .lit tc.data, .wb]

/-- Pattern 5 of `_infer_source_column` and the multi-column pattern of
`_infer_column_dependencies`:
`sum\s*\(\s*case\s+when\s+(\w+)\s*=.*?then\s+(\w+).*?\)\s+as\s+{tc}\b` (DOTALL). -/
def sumCasePat (tc : String) : List RAtom :=
  [litS "sum", .sstar, litS "(", .sstar, litS "case", .splus, litS "when", .splus,
   .wplus true, .sstar, litS "=", .lazystar, litS "then", .splus, .wplus true,
   .lazystar, litS ")", .splus, litS "as", .splus, .lit tc.data, .wb]

/-- The verbatim-mention fallback of `_infer_source_column`: `\b{tc}\b`. -/
def mentionPat (tc : String) : List RAtom := [.wb, .lit tc.data, .wb]

/-- Aggregation probe of `_determine_transformation_type`:
`(sum|count|avg|min|max)\s*\(.*?\)\s+as\s+{tc}\b`. -/
def aggPat (tc : String) : List RAtom :=
  [.alts ["sum".data, "count".data, "avg".data, "min".data, "max".data], .sstar,
   litS "(", .lazystar, litS ")", .splus, litS "as", .splus, .lit tc.data, .wb]

/-- CASE WHEN probe of `_determine_transformation_type`:
`case\s+when.*?as\s+{tc}\b` (DOTALL). -/
def condPat (tc : String) : List RAtom :=
  [litS "case", .splus, litS "when", .lazystar, litS "as", .splus, .lit tc.data, .wb]

/-- Arithmetic probe of `_determine_transformation_type`:
`\w+\s*[+\-*/]\s*\d+\s+as\s+{tc}\b`. -/
def arithTypePat (tc : String) : List RAtom :=
  [.wplus false, .sstar, .cls ['+', '-', '*', '/'], .sstar, .dplus, .splus,
   litS "as", .splus, .lit tc.data, .wb]

/-- Function-call probe of `_determine_transformation_type`:
`\w+\(\w+\)\s+as\s+{tc}\b`. -/
def funcTypePat (tc : String) : List RAtom :=
  [.wplus false, litS "(", .wplus false, litS ")", .splus, litS "as", .splus,
   .lit tc.data, .wb]

/-- `MarquezSync._infer_source_column`: the single-column inference cascade,
patterns tried in source order, first match wins; `None` when nothing matches. -/
def infer_source_column (target_column : String) (compiled_code : String) : Option String :=
  if compiled_code = "" then none
  else
    let nsql := normalizeSql compiled_code
    match research (directAliasPat target_column) nsql with
    | some caps => some (caps.getD 0 "")
    | none =>
      match research (functionAliasPat target_column) nsql with
      | some caps => some (caps.getD 0 "")
      | none =>
        match research (arithAliasPat target_column) nsql with
        | some caps => some (caps.getD 0 "")
        | none =>
          match research (caseWhenPat target_column) nsql with
          | some caps => some (caps.getD 0 "")
          | none =>
            match research (sumCasePat target_column) nsql with
            | some caps => some (caps.getD 1 "")
            | none =>
              if (research (mentionPat target_column) nsql).isSome then
                some target_column
              else none

/-- `MarquezSync._determine_transformation_type`. -/
def determine_transformation_type (target_column : String) (compiled_code : String) : String :=
  if compiled_code = "" then "IDENTITY"
  else
    let nsql := normalizeSql compiled_code
    if (research (aggPat target_column) nsql).isSome then "AGGREGATION"
    else if (research (condPat target_column) nsql).isSome then "CONDITIONAL"
    else if (research (arithTypePat target_column) nsql).isSome then "ARITHMETIC"
    else if (research (funcTypePat target_column) nsql).isSome then "FUNCTION"
    else "IDENTITY"

/-- `ROOT_NAMESPACE`, from the fallback configuration in `load_config`. -/
def ROOT_NAMESPACE : String := "s3://lh-core-kolya-landing-zone"

/-- One entry of the manifest's `nodes` mapping; every field is read through
`.get(·, default)` in the source, so absent fields are empty here. -/
structure NodeInfo where
  database : String := ""
  schema : String := ""
  name : String := ""
  columns : List String := []
  dependsOn : List String := []
  compiledCode : String := ""
deriving DecidableEq

/-- One entry of `manifest["lineage"]["edges"]`.  `targetColumn` is read with
`.get`, so it may be absent; Python also treats an empty string as absent. -/
structure LineageEdge where
  source : String
  target : String
  sourceColumn : String
  targetColumn : Option String := none
deriving DecidableEq

/-- The loaded manifest: `nodes` (id to node) and `lineage.edges`. -/
structure Manifest where
  nodes : List (String × NodeInfo)
  edges : List LineageEdge
deriving DecidableEq

/-- `self.manifest["nodes"].get(id, {})`. -/
def getNode (m : Manifest) (id : String) : NodeInfo :=
  ((m.nodes.find? (fun p => p.1 == id)).map (·.2)).getD {}

/-- `f"{info.get('database','')}.{info.get('schema','')}.{info.get('name','')}"`. -/
def qualifiedName (n : NodeInfo) : String :=
  n.database ++ "." ++ n.schema ++ "." ++ n.name

/-- One element of an `inputFields` list:
`{"namespace": ROOT_NAMESPACE, "name": source_name, "field": source_column}`. -/
structure InputField where
  nspace : String
  name : String
  field : String
deriving DecidableEq

/-- One value of the column-lineage map:
`{"inputFields": [...], "transformationType": ...}`. -/
structure ColEntry where
  inputFields : List InputField
  transformationType : String
deriving DecidableEq

/-- The column-lineage map, as an insertion-ordered association list (the
Python dict has unique keys throughout). -/
abbrev Lineage := List (String × ColEntry)

/-- Dict lookup in the column-lineage map. -/
def lkup : Lineage → String → Option ColEntry
  | [], _ => none
  | (k, v) :: t, c => if k = c then some v else lkup t c

/-- The duplicate-guarded append of `build_column_lineage`:
`if input_field not in entry["inputFields"]: entry["inputFields"].append(...)`. -/
def addField (e : ColEntry) (f : InputField) : ColEntry :=
  if f ∈ e.inputFields then e else { e with inputFields := e.inputFields ++ [f] }

/-- Mutate the entry stored under key `tc` (keys are unique, so updating the
first occurrence is dict assignment). -/
def updateEntry : Lineage → String → InputField → Lineage
  | [], _, _ => []
  | (k, v) :: t, tc, f =>
    if k = tc then (k, addField v f) :: t else (k, v) :: updateEntry t tc f

/-- `MarquezSync._find_source_tables_for_columns`, modelling the Python dict
`column_to_table` as a replace-or-append association list. -/
def dictInsert : List (String × String) → String → String → List (String × String)
  | [], k, v => [(k, v)]
  | (k', v') :: t, k, v =>
    if k' = k then (k, v) :: t else (k', v') :: dictInsert t k v

/-- Lookup in the `column_to_table` dict (`source_tables.get(col)`). -/
def dictGet : List (String × String) → String → Option String
  | [], _ => none
  | (k', v') :: t, k => if k' = k then some v' else dictGet t k

/-- `MarquezSync._find_source_tables_for_columns`: scan the target's
`dependsOn` list; every dependency whose column set contains a queried column
(re)assigns that column's source table — so the **last** matching dependency
survives in the dict. -/
def find_source_tables_for_columns (m : Manifest) (columns : List String)
    (target_node_id : String) : List (String × String) :=
  let target_info := getNode m target_node_id
  target_info.dependsOn.foldl (fun acc dep_node_id =>
    let dep_info := getNode m dep_node_id
    let dep_table_name := qualifiedName dep_info
    columns.foldl (fun acc2 column =>
      if column ∈ dep_info.columns then dictInsert acc2 column dep_table_name
      else acc2) acc) []

/-- `MarquezSync._infer_column_dependencies`: the multi-column SUM/CASE path,
falling back to `_infer_source_column`.  Note that the SUM/CASE path appends
one input field per element of `[condition_col, amount_col]` with **no**
duplicate guard. -/
def infer_column_dependencies (m : Manifest) (target_column : String)
    (compiled_code : String) (target_node_id : String) : List InputField :=
  if compiled_code = "" then []
  else
    let nsql := normalizeSql compiled_code
    match research (sumCasePat target_column) nsql with
    | some caps =>
      let condition_col := caps.getD 0 ""
      let amount_col := caps.getD 1 ""
      let source_tables :=
        find_source_tables_for_columns m [condition_col, amount_col] target_node_id
      [condition_col, amount_col].foldl (fun acc col =>
        match dictGet source_tables col with
        | some source_table => acc ++ [⟨ROOT_NAMESPACE, source_table, col⟩]
        | none => acc) []
    | none =>
      match infer_source_column target_column compiled_code with
      | some inferred_column =>
        let source_tables :=
          find_source_tables_for_columns m [inferred_column] target_node_id
        match dictGet source_tables inferred_column with
        | some source_table => [⟨ROOT_NAMESPACE, source_table, inferred_column⟩]
        | none => []
      | none => []

/-- The resolved source column of one explicit edge: a wildcard goes through
`_infer_source_column`, anything else is used as-is. -/
def resolvedCol (target_column compiled_code : String) (e : LineageEdge) : Option String :=
  if e.sourceColumn = "*" then infer_source_column target_column compiled_code
  else some e.sourceColumn

/-- The input-field triple an explicit edge contributes once resolved. -/
def edgeField (m : Manifest) (e : LineageEdge) (source_column : String) : InputField :=
  ⟨ROOT_NAMESPACE, qualifiedName (getNode m e.source), source_column⟩

/-- The body of the explicit-edge loop of `build_column_lineage` for a single
edge.  Faithful ordering: the (possibly empty) map entry is created **before**
wildcard resolution, and an unresolvable wildcard then leaves that entry
behind (`continue`). -/
def processEdge (m : Manifest) (target_node_id compiled_code : String)
    (st : Lineage) (e : LineageEdge) : Lineage :=
  if e.target = target_node_id then
    match e.targetColumn with
    | none => st
    | some tc =>
      if tc = "" then st
      else
        let st1 := if (lkup st tc).isSome then st
                   else st ++ [(tc, ⟨[], "IDENTITY"⟩)]
        match resolvedCol tc compiled_code e with
        | none => st1
        | some sc => updateEntry st1 tc (edgeField m e sc)
  else st

/-- Step 1 of `build_column_lineage`: fold the explicit-edge loop over an
edge list. -/
def step1Edges (m : Manifest) (target_node_id compiled_code : String)
    (st : Lineage) (edges : List LineageEdge) : Lineage :=
  edges.foldl (processEdge m target_node_id compiled_code) st

/-- Step 2 of `build_column_lineage`: SQL inference for declared columns not
already present in the map; an empty inference result adds nothing. -/
def step2Columns (m : Manifest) (target_node_id compiled_code : String)
    (st : Lineage) (cols : List String) : Lineage :=
  cols.foldl (fun st tc =>
    if (lkup st tc).isSome then st
    else
      let inferred_sources := infer_column_dependencies m tc compiled_code target_node_id
      if inferred_sources = [] then st
      else st ++ [(tc, ⟨inferred_sources,
                        determine_transformation_type tc compiled_code⟩)]) st

/-- The state of the map after the explicit-edge loop of
`build_column_lineage`, starting from the empty dict. -/
def buildStep1 (m : Manifest) (target_node_id : String) : Lineage :=
  step1Edges m target_node_id (getNode m target_node_id).compiledCode [] m.edges

/-- `MarquezSync.build_column_lineage`. -/
def build_column_lineage (m : Manifest) (target_node_id : String) : Lineage :=
  let target_info := getNode m target_node_id
  step2Columns m target_node_id target_info.compiledCode
    (buildStep1 m target_node_id) target_info.columns

/-! ### Concrete fixtures -/

/-- A manifest whose only edge is a wildcard edge targeting column `c` of
model `T`, with compiled SQL (`"z"`) from which nothing can be inferred. -/
def mWildcard : Manifest :=
  { nodes := [("T", { database := "d", schema := "p", name := "t",
                      columns := ["c"], dependsOn := ["S"], compiledCode := "z" }),
              ("S", { database := "d", schema := "p", name := "s1" })],
    edges := [{ source := "S", target := "T", sourceColumn := "*",
                targetColumn := some "c" }] }

/-- A manifest where both dependencies of `T` declare column `x`. -/
def mTwoDeps : Manifest :=
  { nodes := [("T", { database := "d", schema := "p", name := "t",
                      dependsOn := ["D1", "D2"] }),
              ("D1", { database := "d", schema := "p", name := "d1", columns := ["x"] }),
              ("D2", { database := "d", schema := "p", name := "d2", columns := ["x"] })],
    edges := [] }

/-- A manifest whose SUM/CASE projection uses the same column `x` as both the
condition column and the THEN-branch column. -/
def mDupCase : Manifest :=
  { nodes := [("T", { database := "d", schema := "p", name := "t",
                      columns := ["t"], dependsOn := ["S"],
                      compiledCode := "sum(case when x = 'y' then x end) as t" }),
              ("S", { database := "d", schema := "p", name := "s1", columns := ["x"] })],
    edges := [] }

/-- The spec's scenario 3: a conditional-sum aggregation over `orders`. -/
def mPaidTotal : Manifest :=
  { nodes := [("T", { database := "d", schema := "p", name := "t",
                      columns := ["paid_total"], dependsOn := ["O"],
                      compiledCode :=
                        "SELECT SUM(CASE WHEN status = 'paid' THEN amount ELSE 0 END) AS paid_total FROM orders" }),
              ("O", { database := "d", schema := "p", name := "orders",
                      columns := ["status", "amount"] })],
    edges := [] }

/-- A single concrete explicit edge (used to exercise idempotent accumulation). -/
def eXY : LineageEdge :=
  { source := "S", target := "T", sourceColumn := "x", targetColumn := some "y" }

/-- A manifest with one concrete (non-wildcard) edge from `S.x` to `T.y`. -/
def mOneEdge : Manifest :=
  { nodes := [("T", { database := "d", schema := "p", name := "t", columns := ["y"] }),
              ("S", { database := "d", schema := "p", name := "s1", columns := ["x"] })],
    edges := [eXY] }

/-- The plain (un-summed) CASE WHEN projection of claim C3, target column `f`;
its condition column is `s` and its THEN-branch column is `a`. -/
def sqlCaseWhen : String := "case when s = 'p' then a else b end as f"

/-- The arithmetic projection of claim C5, target column `b`;
its identifier operand is `a` and its numeric operand is `1`. -/
def sqlArithmetic : String := "a / 1 as b"

/-- The contribution of one explicit edge is already present in the map:
either the edge does not apply to this target at all, or the entry for its
target column exists and (when the edge resolves to a source column) already
contains the edge's input-field triple. -/
def edgeDone (m : Manifest) (tid ccode : String) (st : Lineage) (e : LineageEdge) : Prop :=
  e.target = tid → ∀ tc, e.targetColumn = some tc → tc ≠ "" →
    ∃ ent, lkup st tc = some ent ∧
      ∀ sc, resolvedCol tc ccode e = some sc → edgeField m e sc ∈ ent.inputFields

/-! ### Association-list lemmas -/

theorem lkup_append (st l₂ : Lineage) (c : String) :
    lkup (st ++ l₂) c =
      match lkup st c with
      | some ent => some ent
      | none => lkup l₂ c := by
  induction st with
  | nil => simp [lkup]
  | cons p t ih =>
    obtain ⟨k, v⟩ := p
    by_cases hk : k = c <;> simp [lkup, hk, ih]

theorem lkup_append_some {st : Lineage} {c : String} {ent : ColEntry}
    (l₂ : Lineage) (h : lkup st c = some ent) : lkup (st ++ l₂) c = some ent := by
  rw [lkup_append, h]

theorem lkup_append_cases {st : Lineage} {k c : String} {v ent : ColEntry}
    (h : lkup (st ++ [(k, v)]) c = some ent) :
    lkup st c = some ent ∨ (lkup st c = none ∧ c = k ∧ ent = v) := by
  rw [lkup_append] at h
  cases hs : lkup st c with
  | some e => rw [hs] at h; exact Or.inl h
  | none =>
    rw [hs] at h
    simp only [lkup] at h
    by_cases hk : k = c
    · rw [if_pos hk] at h
      exact Or.inr ⟨rfl, hk.symm, (Option.some.inj h).symm⟩
    · rw [if_neg hk] at h
      exact absurd h (by simp)

theorem lkup_updateEntry (st : Lineage) (tc : String) (f : InputField) (c : String) :
    lkup (updateEntry st tc f) c =
      if c = tc then (lkup st tc).map (fun e => addField e f) else lkup st c := by
  induction st with
  | nil => by_cases h : c = tc <;> simp [updateEntry, lkup, h]
  | cons p t ih =>
    obtain ⟨k, v⟩ := p
    by_cases hk : k = tc
    · by_cases hc : k = c
      · have hct : c = tc := hc.symm.trans hk
        simp [updateEntry, lkup, hk, hc, hct]
      · have hct : c ≠ tc := fun h => hc (hk.trans h.symm)
        simp [updateEntry, lkup, hk, hc, hct, Ne.symm hct]
    · by_cases hc : k = c
      · have hct : c ≠ tc := fun h => hk (hc.trans h)
        simp [updateEntry, lkup, hk, hc, hct, Ne.symm hct]
      · simp [updateEntry, lkup, hk, hc, ih]

theorem self_mem_addField (e : ColEntry) (f : InputField) :
    f ∈ (addField e f).inputFields := by
  unfold addField; by_cases h : f ∈ e.inputFields <;> simp [h]

theorem mem_addField {e : ColEntry} {g f : InputField} (h : g ∈ e.inputFields) :
    g ∈ (addField e f).inputFields := by
  unfold addField; by_cases hf : f ∈ e.inputFields <;> simp [hf, h]

theorem addField_eq_self {e : ColEntry} {f : InputField} (h : f ∈ e.inputFields) :
    addField e f = e := by
  unfold addField; simp [h]

theorem nodup_addField {e : ColEntry} {f : InputField} (h : e.inputFields.Nodup) :
    (addField e f).inputFields.Nodup := by
  unfold addField
  by_cases hf : f ∈ e.inputFields
  · simp [hf, h]
  · simp only [hf, ite_false]
    simp only [List.Nodup, List.pairwise_append]
    refine ⟨h, ?_, ?_⟩
    · simp
    · intro a ha b hb
      simp only [List.mem_singleton] at hb
      exact fun hab => hf ((hab.trans hb) ▸ ha)

theorem updateEntry_eq_self {st : Lineage} {tc : String} {ent : ColEntry} {f : InputField}
    (h : lkup st tc = some ent) (hf : f ∈ ent.inputFields) : updateEntry st tc f = st := by
  induction st with
  | nil => simp [lkup] at h
  | cons p t ih =>
    obtain ⟨k, v⟩ := p
    by_cases hk : k = tc
    · simp only [lkup, if_pos hk] at h
      obtain rfl : v = ent := Option.some.inj h
      simp [updateEntry, hk, addField_eq_self hf]
    · simp only [lkup, if_neg hk] at h
      simp [updateEntry, hk, ih h]

theorem dictGet_insert_self (l : List (String × String)) (k v : String) :
    dictGet (dictInsert l k v) k = some v := by
  induction l with
  | nil => simp [dictInsert, dictGet]
  | cons p t ih =>
    obtain ⟨k', v'⟩ := p
    by_cases h : k' = k <;> simp [dictInsert, h, dictGet, ih]

/-! ### The explicit-edge loop: reduction lemmas -/

theorem processEdge_not_target {m : Manifest} {tid ccode : String} {st : Lineage}
    {e : LineageEdge} (h : ¬ e.target = tid) : processEdge m tid ccode st e = st := by
  simp [processEdge, h]

theorem processEdge_no_tc {m : Manifest} {tid ccode : String} {st : Lineage}
    {e : LineageEdge} (h : e.targetColumn = none) : processEdge m tid ccode st e = st := by
  simp [processEdge, h]

theorem processEdge_empty_tc {m : Manifest} {tid ccode : String} {st : Lineage}
    {e : LineageEdge} (h : e.targetColumn = some "") : processEdge m tid ccode st e = st := by
  simp [processEdge, h]

theorem processEdge_of_target {m : Manifest} {tid ccode : String} {st : Lineage}
    {e : LineageEdge} {tc : String}
    (ht : e.target = tid) (htc : e.targetColumn = some tc) (hne : tc ≠ "") :
    processEdge m tid ccode st e =
      (match resolvedCol tc ccode e with
       | none => if (lkup st tc).isSome then st else st ++ [(tc, ⟨[], "IDENTITY"⟩)]
       | some sc =>
          updateEntry (if (lkup st tc).isSome then st else st ++ [(tc, ⟨[], "IDENTITY"⟩)])
            tc (edgeField m e sc)) := by
  simp [processEdge, ht, htc, hne]

/-! ### Idempotent accumulation -/

theorem processEdge_eq_of_done {m : Manifest} {tid ccode : String} {st : Lineage}
    {e : LineageEdge} (h : edgeDone m tid ccode st e) :
    processEdge m tid ccode st e = st := by
  by_cases ht : e.target = tid
  · cases htc : e.targetColumn with
    | none => exact processEdge_no_tc htc
    | some tc =>
      by_cases hne : tc = ""
      · exact processEdge_empty_tc (hne ▸ htc)
      · obtain ⟨ent, hl, hmem⟩ := h ht tc htc hne
        rw [processEdge_of_target ht htc hne]
        have hsome : (lkup st tc).isSome = true := by rw [hl]; rfl
        cases hr : resolvedCol tc ccode e with
        | none => simp [hsome]
        | some sc =>
          simp only [if_pos hsome]
          exact updateEntry_eq_self hl (hmem sc hr)
  · exact processEdge_not_target ht

theorem lkup_mono_processEdge {m : Manifest} {tid ccode : String} {st : Lineage}
    {c : String} {ent : ColEntry} (e' : LineageEdge) (h : lkup st c = some ent) :
    ∃ ent', lkup (processEdge m tid ccode st e') c = some ent' ∧
      ∀ f, f ∈ ent.inputFields → f ∈ ent'.inputFields := by
  by_cases ht : e'.target = tid
  · cases htc : e'.targetColumn with
    | none => exact ⟨ent, by rw [processEdge_no_tc htc]; exact h, fun _ hf => hf⟩
    | some tc =>
      by_cases hne : tc = ""
      · exact ⟨ent, by rw [processEdge_empty_tc (hne ▸ htc)]; exact h, fun _ hf => hf⟩
      · rw [processEdge_of_target ht htc hne]
        have hst1 :
            lkup (if (lkup st tc).isSome then st else st ++ [(tc, ⟨[], "IDENTITY"⟩)]) c
              = some ent := by
          split
          · exact h
          · exact lkup_append_some _ h
        cases hr : resolvedCol tc ccode e' with
        | none => exact ⟨ent, hst1, fun _ hf => hf⟩
        | some sc =>
          by_cases hct : c = tc
          · refine ⟨addField ent (edgeField m e' sc), ?_, fun f hf => mem_addField hf⟩
            subst hct
            rw [lkup_updateEntry, if_pos rfl, hst1]
            rfl
          · exact ⟨ent, by rw [lkup_updateEntry, if_neg hct]; exact hst1, fun _ hf => hf⟩
  · exact ⟨ent, by rw [processEdge_not_target ht]; exact h, fun _ hf => hf⟩

theorem edgeDone_mono {m : Manifest} {tid ccode : String} {st : Lineage}
    {e : LineageEdge} (h : edgeDone m tid ccode st e) (e' : LineageEdge) :
    edgeDone m tid ccode (processEdge m tid ccode st e') e := by
  intro ht tc htc hne
  obtain ⟨ent, hl, hmem⟩ := h ht tc htc hne
  obtain ⟨ent', hl', hsub⟩ := lkup_mono_processEdge e' hl
  exact ⟨ent', hl', fun sc hsc => hsub _ (hmem sc hsc)⟩

theorem edgeDone_processEdge_self {m : Manifest} {tid ccode : String} {st : Lineage}
    {e : LineageEdge} : edgeDone m tid ccode (processEdge m tid ccode st e) e := by
  intro ht tc htc hne
  rw [processEdge_of_target ht htc hne]
  have h1 : ∃ ent1,
      lkup (if (lkup st tc).isSome then st else st ++ [(tc, ⟨[], "IDENTITY"⟩)]) tc
        = some ent1 := by
    cases hls : lkup st tc with
    | some v => exact ⟨v, by simp [hls]⟩
    | none =>
      refine ⟨⟨[], "IDENTITY"⟩, ?_⟩
      rw [if_neg (by simp), lkup_append, hls]
      simp [lkup]
  obtain ⟨ent1, hl1⟩ := h1
  cases hr : resolvedCol tc ccode e with
  | none => exact ⟨ent1, hl1, fun sc hsc => Option.noConfusion hsc⟩
  | some sc =>
    refine ⟨addField ent1 (edgeField m e sc), ?_, ?_⟩
    · rw [lkup_updateEntry, if_pos rfl, hl1]; rfl
    · intro sc' hsc'
      obtain rfl : sc = sc' := Option.some.inj hsc'
      exact self_mem_addField ent1 (edgeField m e sc)

theorem edgeDone_step1Edges {m : Manifest} {tid ccode : String} {st : Lineage}
    {e : LineageEdge} (h : edgeDone m tid ccode st e) (l : List LineageEdge) :
    edgeDone m tid ccode (step1Edges m tid ccode st l) e := by
  induction l generalizing st with
  | nil => exact h
  | cons e' t ih => exact ih (edgeDone_mono h e')

theorem edgeDone_of_mem {m : Manifest} {tid ccode : String} {st : Lineage}
    {e : LineageEdge} {l : List LineageEdge} (he : e ∈ l) :
    edgeDone m tid ccode (step1Edges m tid ccode st l) e := by
  induction l generalizing st with
  | nil => cases he
  | cons e' t ih =>
    rcases List.mem_cons.mp he with rfl | hmem
    · exact edgeDone_step1Edges edgeDone_processEdge_self t
    · exact ih hmem

theorem step1Edges_eq_of_done {m : Manifest} {tid ccode : String} {st : Lineage}
    {l : List LineageEdge} (h : ∀ e ∈ l, edgeDone m tid ccode st e) :
    step1Edges m tid ccode st l = st := by
  induction l with
  | nil => rfl
  | cons e t ih =>
    show step1Edges m tid ccode (processEdge m tid ccode st e) t = st
    rw [processEdge_eq_of_done (h e (List.mem_cons_self e t))]
    exact ih (fun e' he' => h e' (List.mem_cons_of_mem e he'))

theorem step1Edges_append (m : Manifest) (tid ccode : String) (st : Lineage)
    (l₁ l₂ : List LineageEdge) :
    step1Edges m tid ccode st (l₁ ++ l₂) =
      step1Edges m tid ccode (step1Edges m tid ccode st l₁) l₂ := by
  simp [step1Edges, List.foldl_append]

/-! ### Step-2 preservation lemmas -/

theorem lkup_step2_of_some {m : Manifest} {tid ccode : String} {st : Lineage}
    {c : String} {ent : ColEntry} (cols : List String) (h : lkup st c = some ent) :
    lkup (step2Columns m tid ccode st cols) c = some ent := by
  induction cols generalizing st with
  | nil => exact h
  | cons tc t ih =>
    apply ih
    dsimp only
    split
    · exact h
    · split
      · exact h
      · exact lkup_append_some _ h

theorem lkup_step2_cases {m : Manifest} {tid ccode : String} {st : Lineage}
    {cols : List String} {c : String} {ent : ColEntry}
    (h : lkup (step2Columns m tid ccode st cols) c = some ent) :
    lkup st c = some ent ∨ ent.inputFields ≠ [] := by
  induction cols generalizing st with
  | nil => exact Or.inl h
  | cons tc t ih =>
    rcases ih h with h' | hne
    · dsimp only at h'
      by_cases hs : (lkup st tc).isSome = true
      · rw [if_pos hs] at h'; exact Or.inl h'
      · rw [if_neg hs] at h'
        by_cases hinf : infer_column_dependencies m tc ccode tid = []
        · rw [if_pos hinf] at h'; exact Or.inl h'
        · rw [if_neg hinf] at h'
          rcases lkup_append_cases h' with h'' | ⟨_, _, hev⟩
          · exact Or.inl h''
          · right; rw [hev]; exact hinf
    · exact Or.inr hne

/-! ### No-duplicate invariant of the explicit-edge loop -/

theorem allNodup_processEdge {m : Manifest} {tid ccode : String} {st : Lineage}
    {e : LineageEdge}
    (h : ∀ c ent, lkup st c = some ent → ent.inputFields.Nodup) :
    ∀ c ent, lkup (processEdge m tid ccode st e) c = some ent →
      ent.inputFields.Nodup := by
  intro c ent hc
  by_cases ht : e.target = tid
  · cases htc : e.targetColumn with
    | none => rw [processEdge_no_tc htc] at hc; exact h _ _ hc
    | some tc =>
      by_cases hne : tc = ""
      · rw [processEdge_empty_tc (hne ▸ htc)] at hc; exact h _ _ hc
      · rw [processEdge_of_target ht htc hne] at hc
        have h1 : ∀ c ent,
            lkup (if (lkup st tc).isSome then st
                  else st ++ [(tc, ⟨[], "IDENTITY"⟩)]) c = some ent →
              ent.inputFields.Nodup := by
          intro c' ent' hc'
          by_cases hs : (lkup st tc).isSome = true
          · rw [if_pos hs] at hc'; exact h _ _ hc'
          · rw [if_neg hs] at hc'
            rcases lkup_append_cases hc' with h' | ⟨_, _, hev⟩
            · exact h _ _ h'
            · rw [hev]; exact List.nodup_nil
        cases hr : resolvedCol tc ccode e with
        | none => rw [hr] at hc; exact h1 _ _ hc
        | some sc =>
          rw [hr] at hc
          rw [lkup_updateEntry] at hc
          by_cases hct : c = tc
          · rw [if_pos hct] at hc
            cases hl1 : lkup (if (lkup st tc).isSome then st
                else st ++ [(tc, ⟨[], "IDENTITY"⟩)]) tc with
            | none => rw [hl1] at hc; cases hc
            | some ent1 =>
              rw [hl1] at hc
              obtain rfl : addField ent1 (edgeField m e sc) = ent := Option.some.inj hc
              exact nodup_addField (h1 _ _ hl1)
          · rw [if_neg hct] at hc; exact h1 _ _ hc
  · rw [processEdge_not_target ht] at hc; exact h _ _ hc

theorem allNodup_step1Edges {m : Manifest} {tid ccode : String} {st : Lineage}
    (h : ∀ c ent, lkup st c = some ent → ent.inputFields.Nodup)
    (l : List LineageEdge) :
    ∀ c ent, lkup (step1Edges m tid ccode st l) c = some ent →
      ent.inputFields.Nodup := by
  induction l generalizing st with
  | nil => exact h
  | cons e t ih => exact ih (allNodup_processEdge h)

/-! ### Last-dependency-wins characterization of table resolution -/

theorem find?_append_singleton {α : Type} (l : List α) (d : α) (p : α → Bool) :
    (l ++ [d]).find? p =
      match l.find? p with
      | some x => some x
      | none => if p d then some d else none := by
  induction l with
  | nil => cases hp : p d <;> simp [List.find?, hp]
  | cons a t ih => cases hp : p a <;> simp [List.find?, hp, ih]

theorem findTables_singleton_go (m : Manifest) (x : String) (deps : List String)
    (acc : List (String × String)) :
    dictGet (deps.foldl (fun acc d =>
        if x ∈ (getNode m d).columns then
          dictInsert acc x (qualifiedName (getNode m d))
        else acc) acc) x =
      match deps.reverse.find? (fun d => decide (x ∈ (getNode m d).columns)) with
      | some d => some (qualifiedName (getNode m d))
      | none => dictGet acc x := by
  induction deps generalizing acc with
  | nil => simp
  | cons d t ih =>
    simp only [List.foldl, List.reverse_cons]
    rw [ih, find?_append_singleton]
    cases hf : t.reverse.find? (fun d => decide (x ∈ (getNode m d).columns)) with
    | some d' => rfl
    | none =>
      by_cases hx : x ∈ (getNode m d).columns
      · simp [hx, dictGet_insert_self]
      · simp [hx]

theorem find_source_tables_singleton (m : Manifest) (x tid : String) :
    find_source_tables_for_columns m [x] tid =
      (getNode m tid).dependsOn.foldl (fun acc d =>
        if x ∈ (getNode m d).columns then
          dictInsert acc x (qualifiedName (getNode m d))
        else acc) [] := rfl

/-! ### Engine lemmas -/

theorem research_directAlias_nil (tc : String) :
    research (directAliasPat tc) [] = none := rfl

/-! ### Claim theorems -/

/-- Claim C1, counterexample: in `mWildcard` the only edge targeting column
`c` is a wildcard whose inference fails, yet `build_column_lineage` returns a
map in which `c` is present with an **empty** `inputFields` list — refuting
"contains no key whose inputFields list is empty ... c is absent from the
returned map". -/
theorem c1_counterexample :
    lkup (build_column_lineage mWildcard "T") "c" = some ⟨[], "IDENTITY"⟩ := by
  decide

/-- Claim C1, amended: an entry of the assembled map with an empty
`inputFields` list can exist, but only as a Step-1 entry (created before
wildcard resolution); the Step-2 inference loop never adds an entry with an
empty `inputFields` list, so every empty entry of the final map is already
the corresponding Step-1 entry. -/
theorem c1_empty_entries_only_from_step1 (m : Manifest) (tid c : String)
    (ent : ColEntry) (h : lkup (build_column_lineage m tid) c = some ent)
    (hemp : ent.inputFields = []) :
    lkup (buildStep1 m tid) c = some ent := by
  have h2 : lkup (step2Columns m tid (getNode m tid).compiledCode
      (buildStep1 m tid) (getNode m tid).columns) c = some ent := h
  rcases lkup_step2_cases h2 with h' | hne
  · exact h'
  · exact absurd hemp hne

/-- Claim C1, witness for the amended theorem at the concrete manifest
`mWildcard`. -/
theorem c1_witness :
    lkup (build_column_lineage mWildcard "T") "c" = some ⟨[], "IDENTITY"⟩ ∧
    lkup (buildStep1 mWildcard "T") "c" = some ⟨[], "IDENTITY"⟩ :=
  ⟨by decide,
   c1_empty_entries_only_from_step1 mWildcard "T" "c" ⟨[], "IDENTITY"⟩ (by decide) rfl⟩

/-- Claim C2, counterexample: in `mTwoDeps` both dependencies `D1` and `D2`
declare column `x`; the assembler's table resolution returns the qualified
name of `D2`, the **last** dependency in `dependsOn` order, not the first. -/
theorem c2_counterexample :
    dictGet (find_source_tables_for_columns mTwoDeps ["x"] "T") "x" = some "d.p.d2" ∧
    dictGet (find_source_tables_for_columns mTwoDeps ["x"] "T") "x" ≠
      some (qualifiedName (getNode mTwoDeps "D1")) :=
  ⟨by decide, by decide⟩

/-- Claim C2, amended: the assembler's table resolution maps an identifier to
the qualified name of the **last** dependency in `dependsOn` order whose
column set contains it (each matching dependency overwrites the previous
assignment). -/
theorem c2_last_dependency_wins (m : Manifest) (tid x : String) :
    dictGet (find_source_tables_for_columns m [x] tid) x =
      ((getNode m tid).dependsOn.reverse.find?
          (fun d => decide (x ∈ (getNode m d).columns))).map
        (fun d => qualifiedName (getNode m d)) := by
  rw [find_source_tables_singleton, findTables_singleton_go]
  cases hf : (getNode m tid).dependsOn.reverse.find?
      (fun d => decide (x ∈ (getNode m d).columns)) with
  | some d => rfl
  | none => rfl

/-- Claim C3, counterexample: for the plain CASE WHEN projection
`case when s = 'p' then a else b end as f` the single-column engine does
**not** return the condition column `s` — the direct-alias matcher fires
first on `end as f`. -/
theorem c3_counterexample :
    infer_source_column "f" sqlCaseWhen ≠ some "s" := by decide

/-- Claim C3, amended: on a plain CASE WHEN projection ending in
`end AS <target>` the engine returns the token `end` captured by the
higher-priority direct-alias matcher (never reaching the CASE WHEN matcher),
while the Transformation Classifier does label the pair CONDITIONAL. -/
theorem c3_alias_matcher_captures_end :
    infer_source_column "f" sqlCaseWhen = some "end" ∧
    determine_transformation_type "f" sqlCaseWhen = "CONDITIONAL" :=
  ⟨by decide, by decide⟩

/-- Claim C4, counterexample: in `mDupCase` the SUM/CASE projection uses the
same column `x` as condition and THEN-branch column; the multi-column
inference path appends the identical input-field triple twice, and the
duplicate pair reaches the assembled map. -/
theorem c4_counterexample :
    infer_column_dependencies mDupCase "t" (getNode mDupCase "T").compiledCode "T" =
      [⟨ROOT_NAMESPACE, "d.p.s1", "x"⟩, ⟨ROOT_NAMESPACE, "d.p.s1", "x"⟩] ∧
    lkup (build_column_lineage mDupCase "T") "t" =
      some ⟨[⟨ROOT_NAMESPACE, "d.p.s1", "x"⟩, ⟨ROOT_NAMESPACE, "d.p.s1", "x"⟩],
            "AGGREGATION"⟩ :=
  ⟨by decide, by decide⟩

/-- Claim C4, amended: on the explicit-edge path every accumulated
`inputFields` list is duplicate-free (the guarded append never inserts a
triple twice); the SQL-inference path, by contrast, can emit the same triple
twice when condition and THEN-branch columns coincide. -/
theorem c4_explicit_path_nodup (m : Manifest) (tid ccode : String)
    (l : List LineageEdge) (c : String) (ent : ColEntry)
    (h : lkup (step1Edges m tid ccode [] l) c = some ent) :
    ent.inputFields.Nodup :=
  allNodup_step1Edges (fun _ _ h' => by simp [lkup] at h') l c ent h

/-- Claim C4, witness for the amended theorem at the concrete manifest
`mOneEdge`. -/
theorem c4_witness :
    lkup (step1Edges mOneEdge "T" "" [] mOneEdge.edges) "y" =
      some ⟨[⟨ROOT_NAMESPACE, "d.p.s1", "x"⟩], "IDENTITY"⟩ ∧
    (⟨[⟨ROOT_NAMESPACE, "d.p.s1", "x"⟩], "IDENTITY"⟩ : ColEntry).inputFields.Nodup :=
  ⟨by decide,
   c4_explicit_path_nodup mOneEdge "T" "" mOneEdge.edges "y"
     ⟨[⟨ROOT_NAMESPACE, "d.p.s1", "x"⟩], "IDENTITY"⟩ (by decide)⟩

/-- Claim C5, counterexample: for `a / 1 as b` the engine does **not** return
the identifier `a` — the direct-alias matcher fires first on `1 as b` and
captures the numeric literal. -/
theorem c5_counterexample :
    infer_source_column "b" sqlArithmetic ≠ some "a" := by decide

/-- Claim C5, amended: on an `<identifier> <op> <number> AS <target>`
projection the engine returns the numeric literal captured by the
higher-priority direct-alias matcher (`\w+` also matches digits), while the
Transformation Classifier does label the pair ARITHMETIC. -/
theorem c5_alias_matcher_captures_number :
    infer_source_column "b" sqlArithmetic = some "1" ∧
    determine_transformation_type "b" sqlArithmetic = "ARITHMETIC" :=
  ⟨by decide, by decide⟩

/-- Claim C6: on the conditional-sum scenario the multi-column SUM/CASE
matcher fires and captures exactly `status` then `amount`; both resolve via
`dependsOn` to `d.p.orders`; the classifier returns AGGREGATION; and the
assembled entry for `paid_total` has exactly those two input fields. -/
theorem c6_conditional_sum_scenario :
    research (sumCasePat "paid_total")
        (normalizeSql (getNode mPaidTotal "T").compiledCode) =
      some ["status", "amount"] ∧
    infer_column_dependencies mPaidTotal "paid_total"
        (getNode mPaidTotal "T").compiledCode "T" =
      [⟨ROOT_NAMESPACE, "d.p.orders", "status"⟩,
       ⟨ROOT_NAMESPACE, "d.p.orders", "amount"⟩] ∧
    determine_transformation_type "paid_total"
        (getNode mPaidTotal "T").compiledCode = "AGGREGATION" ∧
    lkup (build_column_lineage mPaidTotal "T") "paid_total" =
      some ⟨[⟨ROOT_NAMESPACE, "d.p.orders", "status"⟩,
             ⟨ROOT_NAMESPACE, "d.p.orders", "amount"⟩], "AGGREGATION"⟩ :=
  ⟨by decide, by decide, by decide, by decide⟩

/-- Claim C7: whenever the direct-alias pattern matches the normalized SQL
(with the verbatim-mention fallback also matching), the engine returns the
direct-alias capture, never the fallback self-reference; on the concrete
scenario `SELECT customer_id AS cust_id FROM raw_customers` it returns
`customer_id` with classification IDENTITY. -/
theorem c7_direct_alias_beats_fallback :
    (∀ (tc code : String) (caps : List String),
        research (directAliasPat tc) (normalizeSql code) = some caps →
        (research (mentionPat tc) (normalizeSql code)).isSome →
        infer_source_column tc code = some (caps.getD 0 "")) ∧
    infer_source_column "cust_id" "SELECT customer_id AS cust_id FROM raw_customers" =
      some "customer_id" ∧
    determine_transformation_type "cust_id"
        "SELECT customer_id AS cust_id FROM raw_customers" = "IDENTITY" := by
  refine ⟨?_, by decide, by decide⟩
  intro tc code caps h _hm
  by_cases hc : code = ""
  · rw [hc, show normalizeSql "" = [] from rfl, research_directAlias_nil] at h
    cases h
  · simp [infer_source_column, hc, h]

/-- Claim C7, witness applying the general conjunct at the concrete scenario. -/
theorem c7_witness :
    research (directAliasPat "cust_id")
        (normalizeSql "SELECT customer_id AS cust_id FROM raw_customers") =
      some ["customer_id"] ∧
    infer_source_column "cust_id" "SELECT customer_id AS cust_id FROM raw_customers" =
      some "customer_id" :=
  ⟨by decide,
   c7_direct_alias_beats_fallback.1 "cust_id"
     "SELECT customer_id AS cust_id FROM raw_customers" ["customer_id"]
     (by decide) (by decide)⟩

/-- Claim C8: empty (or missing) compiled SQL makes the single-column engine
return no match, the multi-column inference return the empty list, and the
classifier return IDENTITY — for every target column and manifest; the
embedding is total, so no input raises. -/
theorem c8_empty_sql_no_match (m : Manifest) (target_column target_node_id : String) :
    infer_source_column target_column "" = none ∧
    infer_column_dependencies m target_column "" target_node_id = [] ∧
    determine_transformation_type target_column "" = "IDENTITY" :=
  ⟨rfl, rfl, rfl⟩

/-- Claim C9: the explicit-edge accumulation is idempotent over edges —
processing an edge list twice gives the same map as once, and a repetition
of an edge that already occurred earlier in the list can be dropped without
changing the result. -/
theorem c9_idempotent_accumulation (m : Manifest) (tid ccode : String) (st : Lineage) :
    (∀ l : List LineageEdge,
        step1Edges m tid ccode st (l ++ l) = step1Edges m tid ccode st l) ∧
    (∀ (l₁ l₂ : List LineageEdge) (e : LineageEdge), e ∈ l₁ →
        step1Edges m tid ccode st (l₁ ++ e :: l₂) =
          step1Edges m tid ccode st (l₁ ++ l₂)) := by
  constructor
  · intro l
    rw [step1Edges_append]
    exact step1Edges_eq_of_done (fun e he => edgeDone_of_mem he)
  · intro l₁ l₂ e he
    rw [step1Edges_append, step1Edges_append]
    show step1Edges m tid ccode
        (processEdge m tid ccode (step1Edges m tid ccode st l₁) e) l₂ = _
    rw [processEdge_eq_of_done (edgeDone_of_mem he)]

/-- Claim C9, witness at the concrete one-edge manifest. -/
theorem c9_witness :
    step1Edges mOneEdge "T" "" [] ([eXY] ++ [eXY]) =
      step1Edges mOneEdge "T" "" [] [eXY] ∧
    step1Edges mOneEdge "T" "" [] ([eXY] ++ eXY :: []) =
      step1Edges mOneEdge "T" "" [] ([eXY] ++ []) :=
  ⟨(c9_idempotent_accumulation mOneEdge "T" "" []).1 [eXY],
   (c9_idempotent_accumulation mOneEdge "T" "" []).2 [eXY] [] eXY (by decide)⟩

/-- Claim C10: a column targeted by at least one processed explicit edge gets
its map entry created in Step 1 (before wildcard resolution), and Step 2
never touches it — the final map's entry for that column is exactly the
Step-1 entry, whatever SQL inference would have produced. -/
theorem c10_entry_created_before_inference (m : Manifest) (tid c : String)
    (e : LineageEdge) (he : e ∈ m.edges) (ht : e.target = tid)
    (htc : e.targetColumn = some c) (hne : c ≠ "") :
    (lkup (buildStep1 m tid) c).isSome ∧
    lkup (build_column_lineage m tid) c = lkup (buildStep1 m tid) c := by
  obtain ⟨ent, hl, -⟩ :=
    @edgeDone_of_mem m tid (getNode m tid).compiledCode [] e m.edges he ht c htc hne
  have hl' : lkup (buildStep1 m tid) c = some ent := hl
  constructor
  · rw [hl']; rfl
  · show lkup (step2Columns m tid (getNode m tid).compiledCode
        (buildStep1 m tid) (getNode m tid).columns) c = _
    rw [lkup_step2_of_some _ hl', hl']

/-- Claim C10, witness at the concrete wildcard manifest. -/
theorem c10_witness :
    (lkup (buildStep1 mWildcard "T") "c").isSome ∧
    lkup (build_column_lineage mWildcard "T") "c" =
      lkup (buildStep1 mWildcard "T") "c" :=
  c10_entry_created_before_inference mWildcard "T" "c"
    { source := "S", target := "T", sourceColumn := "*", targetColumn := some "c" }
    (by decide) rfl rfl (by decide)

end MarquezSync
